import Mathlib

/-!
A shallow embedding of the heuristic task-extraction core of
`extension/content-script.js`: the due-keyword gate, date/time parsing
(the regular expressions rendered as explicit left-to-right scanners with the
engine's leftmost-first, greedy-with-backtracking semantics), text cleanup,
candidate collection, and the scrape orchestration with (title, dueDate)
deduplication.

JavaScript `Date` values are modelled as normalized proleptic-Gregorian civil
dates; `new Date(y, m, d)` out-of-range normalization is `mkDate`.  The local
time zone is identified with UTC: the final `toISOString` rendering is an
injective, monotone map of the instant, so every equality, inequality and
deduplication fact stated below is independent of that identification.  The
dedup key, the string `title + "__" + isoString`, is modelled as the pair
(title, instant): ISO strings have fixed length, so the string key is
injective in the pair.
-/

set_option maxRecDepth 8000

namespace PolyCapture

/-- JavaScript regex word characters (for `\b` tests): ASCII letters, digits
and underscore. -/
def isWordChar (c : Char) : Bool := c.isAlpha || c.isDigit || c == '_'

/-- Whitespace as matched by `\s` and removed by `trim` (ASCII forms). -/
def isSpaceChar (c : Char) : Bool :=
  c == ' ' || c == '\t' || c == '\n' || c == '\r' || c == '\x0b' || c == '\x0c'

/-- ASCII lower-casing, the case folding performed by the `/i` regex flag. -/
def lc (c : Char) : Char := c.toLower

/-- `\d` with its numeric value: the character-code window 48 to 57. -/
def digit? (c : Char) : Option Nat :=
  if 48 ≤ c.toNat ∧ c.toNat ≤ 57 then some (c.toNat - 48) else none

/-- Whether the rest of the input starts with a word character; a trailing
`\b` after a word character succeeds exactly when this is false. -/
def isWordB : List Char → Bool
  | [] => false
  | c :: _ => isWordChar c

/-- Case-insensitive literal prefix match (pattern supplied lower-case),
returning the remaining input. -/
def startsWithCI : List Char → List Char → Option (List Char)
  | [], s => some s
  | _ :: _, [] => none
  | p :: ps, c :: cs => if lc c == p then startsWithCI ps cs else none

/-- Exactly two `\d`, with value. -/
def two? : List Char → Option (Nat × List Char)
  | a :: b :: rest =>
    match digit? a, digit? b with
    | some x, some y => some (x * 10 + y, rest)
    | _, _ => none
  | _ => none

/-- Exactly four `\d`, with value. -/
def four? (s : List Char) : Option (Nat × List Char) :=
  match two? s with
  | some (hi, r) =>
    match two? r with
    | some (lo, r2) => some (hi * 100 + lo, r2)
    | none => none
  | none => none

/-- Generic leftmost-first scan: try the pattern at every position, tracking
whether the previous character is a word character (for leading `\b` tests).
None of the embedded patterns can match the empty string, so the attempt at
the end-of-input position is omitted. -/
def scanFor {α : Type} (tryAt : Bool → List Char → Option α) : Bool → List Char → Option α
  | _, [] => none
  | prevWord, c :: rest =>
    match tryAt prevWord (c :: rest) with
    | some r => some r
    | none => scanFor tryAt (isWordChar c) rest

/-- A JavaScript `Date`'s civil components (local = UTC here), normalized. -/
structure JSDate where
  year : Int
  month : Nat
  day : Int
deriving DecidableEq

/-- Gregorian leap-year rule, as used by `Date`. -/
def isLeap (y : Int) : Bool := (y % 4 == 0 && y % 100 != 0) || y % 400 == 0

/-- Days in the 0-based month `m` of year `y`. -/
def daysInMonth (y : Int) (m : Nat) : Int :=
  if m == 1 then (if isLeap y then 29 else 28)
  else if m == 3 || m == 5 || m == 8 || m == 10 then 30
  else 31

/-- Day-of-month normalization by month stepping; the fuel covers every day
offset the parser can produce (at most two digits, so below 100). -/
def fixDay : Nat → Int → Nat → Int → JSDate
  | 0, y, m, d => ⟨y, m, d⟩
  | fuel + 1, y, m, d =>
    if d < 1 then
      let y2 := if m == 0 then y - 1 else y
      let m2 := if m == 0 then 11 else m - 1
      fixDay fuel y2 m2 (d + daysInMonth y2 m2)
    else if daysInMonth y m < d then
      let y2 := if m == 11 then y + 1 else y
      let m2 := if m == 11 then 0 else m + 1
      fixDay fuel y2 m2 (d - daysInMonth y m)
    else ⟨y, m, d⟩

/-- The `MakeDay`-style normalization shared by the `Date` constructor and
the `Date` setters: month overflow folds into the year (floored division),
then the day is normalized.  No year remapping happens here. -/
def mkDateRaw (y m d : Int) : JSDate :=
  fixDay 102 (y + m.ediv 12) (m.emod 12).toNat d

/-- `MakeFullYear`: the `Date` constructor maps a year argument between 0
and 99 to 1900 + year; the setters (`setFullYear`, `setDate`, `setHours`)
apply no such remapping. -/
def fullYear (y : Int) : Int := if 0 ≤ y ∧ y ≤ 99 then y + 1900 else y

/-- `new Date(y, m, d)`: `MakeFullYear` on the year argument, then
normalization. -/
def mkDate (y m d : Int) : JSDate := mkDateRaw (fullYear y) m d

/-- The ambient clock (`new Date()`): a normalized civil date plus the
elapsed time of day in minutes (any positive value means past midnight). -/
structure Instant where
  year : Int
  month : Nat
  day : Int
  mins : Nat

/-- The `date < now` timestamp comparison for a parsed (midnight) date:
lexicographic on the civil components, with a strictly positive time of day
breaking the tie on an equal date. -/
def dateLt (d : JSDate) (now : Instant) : Bool :=
  decide (d.year < now.year ∨ (d.year = now.year ∧ (d.month < now.month ∨
    (d.month = now.month ∧ (d.day < now.day ∨ (d.day = now.day ∧ 0 < now.mins))))))

/-- The ISO pattern: word boundary, four digits, dash, two digits, dash, two
digits, word boundary.  Exact digit counts leave no backtracking. -/
def tryIso (prevWord : Bool) (s : List Char) : Option (Nat × Nat × Nat) :=
  if prevWord then none else
  match four? s with
  | some (y, r1) =>
    match r1 with
    | '-' :: r2 =>
      match two? r2 with
      | some (mo, r3) =>
        match r3 with
        | '-' :: r4 =>
          match two? r4 with
          | some (d, r5) => if isWordB r5 then none else some (y, mo, d)
          | none => none
        | _ => none
      | none => none
    | _ => none
  | none => none

/-- The month alternation with its 0-based index.  The regex's extra `sept`
alternative is subsumed by `sep` followed by the greedy letter run, with the
same overall consumption, and `parseMonth` reads only the first three
letters, so the two alternatives are indistinguishable. -/
def monthAlt : List (List Char × Nat) :=
  [("jan".toList, 0), ("feb".toList, 1), ("mar".toList, 2), ("apr".toList, 3),
   ("may".toList, 4), ("jun".toList, 5), ("jul".toList, 6), ("aug".toList, 7),
   ("sep".toList, 8), ("oct".toList, 9), ("nov".toList, 10), ("dec".toList, 11)]

/-- First alternative whose literal is a prefix (regex alternation order). -/
def altMatch : List (List Char × Nat) → List Char → Option (Nat × List Char)
  | [], _ => none
  | (p, v) :: rest, s =>
    match startsWithCI p s with
    | some r => some (v, r)
    | none => altMatch rest s

/-- After the day (and optional ordinal) in the month-day-year pattern: an
optional comma or period, greedy spaces, exactly four digits, `\b`.  Skipping
a present comma or period cannot succeed (the following spaces or digits
never match it), so the optional punctuation is deterministic. -/
def mdyYear (s : List Char) : Option Nat :=
  let s1 := match s with
    | ',' :: t => t
    | '.' :: t => t
    | _ => s
  match four? (s1.dropWhile isSpaceChar) with
  | some (y, r) => if isWordB r then none else some y
  | none => none

/-- An ordinal suffix `st`, `nd`, `rd` or `th` (case-insensitive). -/
def ordSkip (s : List Char) : Option (List Char) :=
  match s with
  | a :: b :: r =>
    if (lc a == 's' && lc b == 't') || (lc a == 'n' && lc b == 'd') ||
       (lc a == 'r' && lc b == 'd') || (lc a == 't' && lc b == 'h') then some r
    else none
  | _ => none

/-- Ordinal preferred (greedy option), with backtracking to its absence. -/
def mdyAfterDay (s : List Char) : Option Nat :=
  match ordSkip s with
  | some r =>
    match mdyYear r with
    | some y => some y
    | none => mdyYear s
  | none => mdyYear s

/-- The day of the month-day-year pattern: one or two digits, two preferred,
with backtracking into the rest of the pattern. -/
def mdyDay (mo : Nat) (s : List Char) : Option (Nat × Nat × Nat) :=
  match s with
  | a :: r1 =>
    match digit? a with
    | some x =>
      match r1 with
      | b :: r2 =>
        match digit? b with
        | some y2 =>
          match mdyAfterDay r2 with
          | some yr => some (mo, x * 10 + y2, yr)
          | none =>
            match mdyAfterDay r1 with
            | some yr => some (mo, x, yr)
            | none => none
        | none =>
          match mdyAfterDay r1 with
          | some yr => some (mo, x, yr)
          | none => none
      | [] =>
        match mdyAfterDay [] with
        | some yr => some (mo, x, yr)
        | none => none
    | none => none
  | [] => none

/-- Month name, greedy letter tail, optional period, mandatory whitespace,
then the day-year tail.  Letters given back by the greedy run could only be
rematched as a period or a space, both impossible, so that run needs no
backtracking here. -/
def mdyCore (s : List Char) : Option (Nat × Nat × Nat) :=
  match altMatch monthAlt s with
  | some (mo, r) =>
    let r1 := r.dropWhile (fun c => c.isAlpha)
    let r2 := match r1 with
      | '.' :: t => t
      | _ => r1
    match r2 with
    | c :: _ => if isSpaceChar c then mdyDay mo (r2.dropWhile isSpaceChar) else none
    | [] => none
  | none => none

/-- Weekday alternation; the longer alternatives (`tues`, `thur`, `thurs`)
are subsumed by their three-letter prefixes plus the greedy letter run. -/
def weekdayAlts : List (List Char) :=
  ["mon".toList, "tue".toList, "wed".toList, "thu".toList, "fri".toList,
   "sat".toList, "sun".toList]

/-- First weekday literal that is a prefix of the input. -/
def wdMatch : List (List Char) → List Char → Option (List Char)
  | [], _ => none
  | p :: rest, s =>
    match startsWithCI p s with
    | some r => some r
    | none => wdMatch rest s

/-- After the weekday's letter run: optional comma or period (deterministic,
as in `mdyYear`), greedy spaces, then the month-day-year core. -/
def wdAfterLetters (s : List Char) : Option (Nat × Nat × Nat) :=
  let s1 := match s with
    | ',' :: t => t
    | '.' :: t => t
    | _ => s
  mdyCore (s1.dropWhile isSpaceChar)

/-- The weekday's greedy letter run: consume as many letters as possible
first, backtracking one letter at a time — the month name itself consists of
letters, so this backtracking is observable. -/
def wdContAux : List Char → Option (Nat × Nat × Nat)
  | [] => wdAfterLetters []
  | c :: rest =>
    if c.isAlpha then
      match wdContAux rest with
      | some r => some r
      | none => wdAfterLetters (c :: rest)
    else wdAfterLetters (c :: rest)

/-- Month-day-year with the optional weekday prefix: the prefix is tried
first, as for a greedy optional group; the weekday and month literals are
disjoint, so at most one weekday alternative can open a given position. -/
def tryMdy (prevWord : Bool) (s : List Char) : Option (Nat × Nat × Nat) :=
  if prevWord then none else
  match wdMatch weekdayAlts s with
  | some r0 =>
    match wdContAux r0 with
    | some res => some res
    | none => mdyCore s
  | none => mdyCore s

/-- Trailing `\b` of the month-day pattern, with the optional ordinal tried
first and given back when the boundary after it fails. -/
def mdBoundary (s : List Char) : Bool :=
  match ordSkip s with
  | some r => !isWordB r || !isWordB s
  | none => !isWordB s

/-- The day of the month-day pattern: one or two digits, two preferred. -/
def mdDay (mo : Nat) (s : List Char) : Option (Nat × Nat) :=
  match s with
  | a :: r1 =>
    match digit? a with
    | some x =>
      match r1 with
      | b :: r2 =>
        match digit? b with
        | some y2 =>
          if mdBoundary r2 then some (mo, x * 10 + y2)
          else if mdBoundary r1 then some (mo, x)
          else none
        | none => if mdBoundary r1 then some (mo, x) else none
      | [] => if mdBoundary [] then some (mo, x) else none
    | none => none
  | [] => none

/-- Month-day (no year): month name, greedy letters, optional period,
whitespace, day, optional ordinal, boundary. -/
def mdCore (s : List Char) : Option (Nat × Nat) :=
  match altMatch monthAlt s with
  | some (mo, r) =>
    let r1 := r.dropWhile (fun c => c.isAlpha)
    let r2 := match r1 with
      | '.' :: t => t
      | _ => r1
    match r2 with
    | c :: _ => if isSpaceChar c then mdDay mo (r2.dropWhile isSpaceChar) else none
    | [] => none
  | none => none

/-- The month-day pattern behind its leading word boundary. -/
def tryMd (prevWord : Bool) (s : List Char) : Option (Nat × Nat) :=
  if prevWord then none else mdCore s

/-- `today` or `tomorrow` with word boundaries; the literals diverge at the
third character, so the alternation is deterministic.  The source lower-cases
the text before this (case-insensitive) match, which changes nothing. -/
def tryRel (prevWord : Bool) (s : List Char) : Option Bool :=
  if prevWord then none else
  match startsWithCI "today".toList s with
  | some r => if isWordB r then none else some false
  | none =>
    match startsWithCI "tomorrow".toList s with
    | some r => if isWordB r then none else some true
    | none => none

/-- The month-day-without-year branch: the current year is assumed (through
the constructor, hence with `MakeFullYear`) and a date already past rolls
forward via `setFullYear(year + 1)`, which applies no two-digit remapping,
keeps the normalized month and day fields, and renormalizes (a leap-day
source date can shift again). -/
def mdResolve (now : Instant) (mo d : Nat) : JSDate :=
  let dte := mkDate now.year (mo : Int) (d : Int)
  if dateLt dte now then mkDateRaw (now.year + 1) (dte.month : Int) dte.day else dte

/-- `today` and `tomorrow` against the current date, time of day zeroed: the
base date is built with the constructor, and `tomorrow` advances it with
`setDate`, which normalizes without any year remapping. -/
def relResolve (now : Instant) (tom : Bool) : JSDate :=
  let base := mkDate now.year (now.month : Int) now.day
  if tom then mkDateRaw base.year (base.month : Int) (base.day + 1) else base

/-- `parseDate`: the fixed precedence chain ISO, month-day-year, month-day,
relative.  The regex's captured month names always lie in `parseMonth`'s
table (the matchers return the index directly), so the source's dead
`month !== -1` guards are omitted. -/
def parseDate (now : Instant) (text : List Char) : Option JSDate :=
  match scanFor tryIso false text with
  | some (y, mo, d) => some (mkDate (y : Int) ((mo : Int) - 1) (d : Int))
  | none =>
    match scanFor tryMdy false text with
    | some (mo, d, y) => some (mkDate (y : Int) (mo : Int) (d : Int))
    | none =>
      match scanFor tryMd false text with
      | some (mo, d) => some (mdResolve now mo d)
      | none =>
        match scanFor tryRel false text with
        | some tom => some (relResolve now tom)
        | none => none

/-- A meridian marker. -/
inductive Mer
  | am
  | pm
deriving DecidableEq

/-- A normalized time of day as produced by `normalizeTime`. -/
structure ParsedTime where
  hours : Nat
  minutes : Nat
deriving DecidableEq

/-- `normalizeTime(hours, minutes, meridian)`: an hour above 12 is kept as a
24-hour reading whatever the meridian says (reduced mod 24 above 23);
otherwise the standard 12-hour rules apply. -/
def normalizeTime (hours minutes : Nat) (meridian : Option Mer) : ParsedTime :=
  if 12 < hours then ⟨if 23 < hours then hours % 24 else hours, minutes⟩
  else if meridian = some Mer.pm ∧ hours < 12 then ⟨hours + 12, minutes⟩
  else if meridian = some Mer.am ∧ hours = 12 then ⟨0, minutes⟩
  else ⟨hours, minutes⟩

/-- One raw time-pattern match: hour value, the optional explicit minutes
capture, and the optional meridian capture. -/
structure TimeMatch where
  hours : Nat
  minutes : Option Nat
  mer : Option Mer
deriving DecidableEq

/-- A colon followed by exactly two digits (the optional minutes group). -/
def colonTwo? : List Char → Option (Nat × List Char)
  | ':' :: r => two? r
  | _ => none

/-- `am` or `pm`, case-insensitively, as a prefix (the proximity regex has no
trailing boundary, so nothing after the two letters matters). -/
def merAt (s : List Char) : Option Mer :=
  match startsWithCI "am".toList s with
  | some _ => some Mer.am
  | none =>
    match startsWithCI "pm".toList s with
    | some _ => some Mer.pm
    | none => none

/-- One or two digits, greedy; everything after the hour in the proximity
pattern is optional, so the two-digit reading can never be backtracked. -/
def hourPart : List Char → Option (Nat × List Char)
  | a :: rest =>
    match digit? a with
    | some x =>
      match rest with
      | b :: rest2 =>
        match digit? b with
        | some y2 => some (x * 10 + y2, rest2)
        | none => some (x, rest)
      | [] => some (x, [])
    | none => none
  | [] => none

/-- The keyword-proximity time pattern: `at`, `until` or `by` (no word
boundaries anywhere), mandatory spaces, hour, optional `:mm`, spaces,
optional meridian.  The three keywords start with distinct letters, so the
alternation is deterministic at any one position. -/
def tryProx (s : List Char) : Option TimeMatch :=
  let afterKw : Option (List Char) :=
    match startsWithCI "at".toList s with
    | some r => some r
    | none =>
      match startsWithCI "until".toList s with
      | some r => some r
      | none => startsWithCI "by".toList s
  match afterKw with
  | none => none
  | some r0 =>
    match r0 with
    | c :: _ =>
      if isSpaceChar c then
        match hourPart (r0.dropWhile isSpaceChar) with
        | some (h, r3) =>
          match colonTwo? r3 with
          | some (mv, r4) => some ⟨h, some mv, merAt (r4.dropWhile isSpaceChar)⟩
          | none => some ⟨h, none, merAt (r3.dropWhile isSpaceChar)⟩
        | none => none
      else none
    | [] => none

/-- Leftmost occurrence of the proximity pattern. -/
def findProx (text : List Char) : Option TimeMatch :=
  scanFor (fun _ s => tryProx s) false text

/-- Outcome of one global-scan time match: the captures, whether the last
consumed character is a word character (needed for the next leading `\b`;
only its word-ness is ever used), and the remaining input the scan resumes
from (`lastIndex`). -/
structure ScanOut where
  m : TimeMatch
  lastWord : Bool
  rest : List Char
deriving DecidableEq

/-- The scan-pattern tail `\s*(am|pm)?\b` at a fixed amount of consumed
whitespace: meridian preferred, then its absence; the final `\b` compares the
word-ness of the last consumed character with that of the next. -/
def timeTailHere (prevWord : Bool) (s : List Char) : Option (Option Mer × Bool × List Char) :=
  match merAt s with
  | some mr =>
    if !isWordB (s.drop 2) then some (some mr, true, s.drop 2)
    else if prevWord != isWordB s then some (none, prevWord, s)
    else none
  | none => if prevWord != isWordB s then some (none, prevWord, s) else none

/-- The greedy `\s*` of the scan-pattern tail: consume as much whitespace as
possible first and give it back one character at a time. -/
def timeTail (prevWord : Bool) : List Char → Option (Option Mer × Bool × List Char)
  | c :: rest =>
    if isSpaceChar c then
      match timeTail false rest with
      | some r => some r
      | none => timeTailHere prevWord (c :: rest)
    else timeTailHere prevWord (c :: rest)
  | [] => timeTailHere prevWord []

/-- After the hour digits of the scan pattern: the optional `:mm` group
preferred, with backtracking to its absence when the tail then fails. -/
def timeRest (h : Nat) (t : List Char) : Option ScanOut :=
  match colonTwo? t with
  | some (mv, r) =>
    match timeTail true r with
    | some (mer, lw, rest) => some ⟨⟨h, some mv, mer⟩, lw, rest⟩
    | none =>
      match timeTail true t with
      | some (mer, lw, rest) => some ⟨⟨h, none, mer⟩, lw, rest⟩
      | none => none
  | none =>
    match timeTail true t with
    | some (mer, lw, rest) => some ⟨⟨h, none, mer⟩, lw, rest⟩
    | none => none

/-- One attempt of the global time pattern `\b(\d{1,2})(?::(\d{2}))?\s*(am|pm)?\b`:
leading boundary, greedy one-or-two-digit hour with backtracking, then the
rest. -/
def tryScanTime (prevWord : Bool) (s : List Char) : Option ScanOut :=
  if prevWord then none else
  match s with
  | a :: r1 =>
    match digit? a with
    | some x =>
      match r1 with
      | b :: r2 =>
        match digit? b with
        | some y2 =>
          match timeRest (x * 10 + y2) r2 with
          | some o => some o
          | none => timeRest x r1
        | none => timeRest x r1
      | [] => timeRest x []
    | none => none
  | [] => none

/-- The `exec` loop of the global time regex: leftmost matches in order, each
scan resuming after the previous match (matches never overlap); a failed
attempt advances one character.  Every match consumes at least the hour
digit, so the fuel `length + 1` is never exhausted. -/
def scanTimesAux : Nat → Bool → List Char → List TimeMatch
  | 0, _, _ => []
  | fuel + 1, prevWord, s =>
    match tryScanTime prevWord s with
    | some o => o.m :: scanTimesAux fuel o.lastWord o.rest
    | none =>
      match s with
      | [] => []
      | c :: rest => scanTimesAux fuel (isWordChar c) rest

/-- All matches of the global time pattern, in occurrence order. -/
def scanTimes (s : List Char) : List TimeMatch :=
  scanTimesAux (s.length + 1) false s

/-- The filter applied to scanned time matches: reject hours above 23 and
bare numbers carrying neither a minutes capture nor a meridian. -/
def codeTimeFilter (t : TimeMatch) : Bool :=
  !(decide (23 < t.hours)) && !(t.mer.isNone && t.minutes.isNone)

/-- `parseTime`: the keyword-proximity match is used as-is when present;
otherwise the whole text is scanned, the matches are filtered, and the first
match with a meridian is preferred, else the first remaining match. -/
def parseTime (text : List Char) : Option ParsedTime :=
  match findProx text with
  | some k => some (normalizeTime k.hours (k.minutes.getD 0) k.mer)
  | none =>
    let times := (scanTimes text).filter codeTimeFilter
    match times.filter (fun t => t.mer.isSome) with
    | t :: _ => some (normalizeTime t.hours (t.minutes.getD 0) t.mer)
    | [] =>
      match times with
      | t :: _ => some (normalizeTime t.hours (t.minutes.getD 0) t.mer)
      | [] => none

/-- The combined instant a scraped task carries (one `Date` after
`setHours`): normalized civil date plus time of day. -/
structure DateTime where
  year : Int
  month : Nat
  day : Int
  hours : Nat
  minutes : Nat
deriving DecidableEq

/-- `parseDateTimeFromText`: a date is mandatory; a parsed time is layered on
with `setHours(h, m, 0, 0)`, whose overflow (minutes up to 99 can push past
midnight) rolls into the day. -/
def parseDateTimeFromText (now : Instant) (text : List Char) : Option DateTime :=
  match parseDate now text with
  | none => none
  | some d =>
    match parseTime text with
    | none => some ⟨d.year, d.month, d.day, 0, 0⟩
    | some t =>
      let total := t.hours * 60 + t.minutes
      let d2 := mkDateRaw d.year (d.month : Int) (d.day + ((total / 1440 : Nat) : Int))
      some ⟨d2.year, d2.month, d2.day, (total % 1440) / 60, total % 60⟩

/-- The due-keyword alternation, in source order (order is irrelevant for a
pure presence test, but every alternative is tried at every position because
their trailing boundaries differ). -/
def dueAlts : List (List Char) :=
  ["due".toList, "overdue".toList, "deadline".toList, "open until".toList,
   "available until".toList, "closes at".toList, "closes".toList,
   "closing".toList, "submit by".toList, "turn in by".toList, "due by".toList,
   "due on".toList, "due date".toList]

/-- One attempt of the due-keyword pattern: every alternative starts with a
letter, so the leading `\b` demands a non-word previous character; the
trailing `\b` follows a letter, so it demands a non-word next character. -/
def tryDue (prevWord : Bool) (s : List Char) : Option Unit :=
  if prevWord then none else
  if dueAlts.any (fun p =>
      match startsWithCI p s with
      | some r => !isWordB r
      | none => false) then some () else none

/-- `DUE_KEYWORDS.test(text)`. -/
def gate (text : List Char) : Bool :=
  (scanFor tryDue false text).isSome

/-- `trim()` (ASCII whitespace). -/
def wsTrim (s : List Char) : List Char :=
  ((s.dropWhile isSpaceChar).reverse.dropWhile isSpaceChar).reverse

/-- `split("\n")`. -/
def splitLinesAux : List Char → List Char → List (List Char)
  | acc, [] => [acc.reverse]
  | acc, '\n' :: rest => acc.reverse :: splitLinesAux [] rest
  | acc, c :: rest => splitLinesAux (c :: acc) rest

def splitLines (s : List Char) : List (List Char) :=
  splitLinesAux [] s

/-- Case-insensitive whole-line equality against a lower-case literal. -/
def lineIsCI (t : List Char) (pat : List Char) : Bool :=
  t.map lc == pat

/-- Case-insensitive substring test. -/
def containsCI (pat : List Char) : List Char → Bool
  | [] => false
  | c :: rest => (startsWithCI pat (c :: rest)).isSome || containsCI pat rest

/-- The unanchored copyright pattern: a copyright sign, greedy whitespace,
then four digits somewhere in the line. -/
def copyrightPat : List Char → Bool
  | [] => false
  | c :: rest =>
    (c == '©' && (four? (rest.dropWhile isSpaceChar)).isSome) || copyrightPat rest

/-- The anchored `assignment`-then-spaces-then-`my document` pattern. -/
def asgMyDoc (t : List Char) : Bool :=
  match startsWithCI "assignment".toList t with
  | some r => (r.dropWhile isSpaceChar).map lc == "my document".toList
  | none => false

/-- The junk denylist applied to a trimmed line.  The fixed anchored patterns
are whole-line case-insensitive literals; `^!+$` and `^\d+$` are non-empty
single-class lines; `^powerschool` is a prefix test. -/
def junkLine (t : List Char) : Bool :=
  (!t.isEmpty && t.all (fun c => c == '!')) ||
  lineIsCI t "skip to content".toList ||
  lineIsCI t "courses".toList ||
  lineIsCI t "groups".toList ||
  lineIsCI t "resources".toList ||
  lineIsCI t "more".toList ||
  lineIsCI t "home".toList ||
  lineIsCI t "grades".toList ||
  (!t.isEmpty && t.all (fun c => (digit? c).isSome)) ||
  lineIsCI t "start attempt".toList ||
  lineIsCI t "english".toList ||
  lineIsCI t "change language".toList ||
  lineIsCI t "support".toList ||
  lineIsCI t "privacy policy".toList ||
  lineIsCI t "terms of use".toList ||
  (startsWithCI "powerschool".toList t).isSome ||
  copyrightPat t ||
  lineIsCI t "assignment".toList ||
  lineIsCI t "my document".toList ||
  lineIsCI t "assignmentmy document".toList ||
  asgMyDoc t

/-- Collapse immediately consecutive duplicate lines: each line is compared,
after trimming, with the previous line of the pre-collapse list. -/
def dedupGo (prev : List Char) : List (List Char) → List (List Char)
  | [] => []
  | y :: ys =>
    if wsTrim y = wsTrim prev then dedupGo y ys else y :: dedupGo y ys

def dedupConsec : List (List Char) → List (List Char)
  | [] => []
  | x :: xs => x :: dedupGo x xs

/-- `join(sep)`. -/
def joinWith (sep : List Char) : List (List Char) → List Char
  | [] => []
  | [x] => x
  | x :: y :: xs => x ++ sep ++ joinWith sep (y :: xs)

/-- The personal-name heuristic `^[A-Z][a-z]+\s+[A-Z][a-z]+$` (the adjacent
character classes are disjoint, so the greedy runs are deterministic). -/
def namePat (t : List Char) : Bool :=
  match t with
  | c1 :: r1 =>
    c1.isUpper &&
    (match r1 with
     | c2 :: r2 =>
       c2.isLower &&
       (let r3 := r2.dropWhile (fun c => c.isLower)
        match r3 with
        | c3 :: _ =>
          isSpaceChar c3 &&
          (match r3.dropWhile isSpaceChar with
           | c4 :: r5 =>
             c4.isUpper &&
             (match r5 with
              | c5 :: r6 => c5.isLower && (r6.dropWhile (fun c => c.isLower)).isEmpty
              | [] => false)
           | [] => false)
        | [] => false)
     | [] => false)
  | [] => false

/-- `/section|period|class|block/i`. -/
def coursePat (t : List Char) : Bool :=
  containsCI "section".toList t || containsCI "period".toList t ||
  containsCI "class".toList t || containsCI "block".toList t

/-- `/^unit\s+\d+/i` and `/^week\s+\d+/i`. -/
def headNumPat (word : List Char) (t : List Char) : Bool :=
  match startsWithCI word t with
  | some r =>
    (match r with
     | c :: _ => isSpaceChar c && (match r.dropWhile isSpaceChar with
       | d :: _ => (digit? d).isSome
       | [] => false)
     | [] => false)
  | none => false

/-- A bare weekday-name line. -/
def weekdayLine (t : List Char) : Bool :=
  lineIsCI t "monday".toList || lineIsCI t "tuesday".toList ||
  lineIsCI t "wednesday".toList || lineIsCI t "thursday".toList ||
  lineIsCI t "friday".toList || lineIsCI t "saturday".toList ||
  lineIsCI t "sunday".toList

/-- The classifier state of `formatAsBreadcrumb`'s loop. -/
structure BCState where
  hierarchy : List (List Char)
  details : List (List Char)
  foundAssignment : Bool

/-- One loop iteration of `formatAsBreadcrumb`: name-like lines are dropped;
course, unit, week and weekday lines extend the hierarchy until an
assignment line is found; the first non-matching line after a non-empty
hierarchy becomes the assignment; everything else is a detail. -/
def bcStep (st : BCState) (line : List Char) : BCState :=
  let t := wsTrim line
  if namePat t then st
  else if !st.foundAssignment && coursePat t then
    { st with hierarchy := st.hierarchy ++ [t] }
  else if !st.foundAssignment && headNumPat "unit".toList t then
    { st with hierarchy := st.hierarchy ++ [t] }
  else if !st.foundAssignment && headNumPat "week".toList t then
    { st with hierarchy := st.hierarchy ++ [t] }
  else if !st.foundAssignment && weekdayLine t then
    { st with hierarchy := st.hierarchy ++ [t] }
  else if !st.foundAssignment && !st.hierarchy.isEmpty then
    { st with hierarchy := st.hierarchy ++ [t], foundAssignment := true }
  else { st with details := st.details ++ [t] }

/-- `formatAsBreadcrumb(lines)`. -/
def formatAsBreadcrumb (lines : List (List Char)) : List Char :=
  if lines.length < 3 then wsTrim (joinWith ['\n'] lines)
  else
    let st := lines.foldl bcStep ⟨[], [], false⟩
    let out1 : List (List Char) := if st.hierarchy.isEmpty then [] else [joinWith " > ".toList st.hierarchy]
    let out2 : List (List Char) := if st.details.isEmpty then [] else [] :: st.details
    wsTrim (joinWith ['\n'] (out1 ++ out2))

/-- `cleanRawText(text)`: split into lines, drop blank and junk lines,
collapse consecutive duplicates, then rebuild as a breadcrumb. -/
def cleanRawText (text : List Char) : List Char :=
  let cleaned := (splitLines text).filter fun line =>
    let t := wsTrim line
    !t.isEmpty && !junkLine t
  formatAsBreadcrumb (dedupConsec cleaned)

/-- One rendered element of the external document model, in traversal order.
`visible` stands for the external visibility oracle (the `HTMLElement`
instance test and the computed-style checks); the tag test is explicit. -/
structure Element where
  visible : Bool
  tag : List Char
  innerText : List Char

/-- Tags excluded as non-content containers. -/
def nonContentTags : List (List Char) :=
  ["script".toList, "style".toList, "noscript".toList, "template".toList,
   "svg".toList, "path".toList]

/-- `isVisible(el)`: the oracle conjoined with the tag exclusion (all checks
are pure boolean conjuncts, so their evaluation order is immaterial). -/
def isVisibleModel (e : Element) : Bool :=
  !(nonContentTags.contains (e.tag.map lc)) && e.visible

/-- The length-window rejection applied to the trimmed text: falsy (empty),
shorter than 8, or longer than 1000. -/
def skipText (t : List Char) : Bool :=
  t.isEmpty || decide (t.length < 8) || decide (1000 < t.length)

/-- `findCandidateElements()`: visible elements with trimmed text inside the
length window, exact-duplicate texts suppressed so that only the first
occurrence in traversal order survives. -/
def fceAux : List Element → List (List Char) → List (Element × List Char)
  | [], _ => []
  | e :: rest, seen =>
    if isVisibleModel e then
      let text := wsTrim e.innerText
      if skipText text then fceAux rest seen
      else if text ∈ seen then fceAux rest seen
      else (e, text) :: fceAux rest (text :: seen)
    else fceAux rest seen

def findCandidateElements (doc : List Element) : List (Element × List Char) :=
  fceAux doc []

/-- A scraped task record; `title` is the resolved title, `dueDate` the
parsed instant (rendered as the ISO string at the transport boundary), and
`raw` the cleaned description text. -/
structure Task where
  title : List Char
  dueDate : DateTime
  raw : List Char
deriving DecidableEq

/-- The candidate loop of `scrapeTasks`: gate, parse, resolve the title,
deduplicate on the (title, dueDate) key, keeping the first occurrence.  The
title resolver walks the external document model, so it enters the embedding
as the oracle `titleOf`. -/
def scrapeGo (now : Instant) (titleOf : Element → List Char) :
    List (Element × List Char) → List (List Char × DateTime) → List Task
  | [], _ => []
  | (el, text) :: rest, seen =>
    if gate text then
      match parseDateTimeFromText now text with
      | some dt =>
        if (titleOf el, dt) ∈ seen then scrapeGo now titleOf rest seen
        else ⟨titleOf el, dt, cleanRawText text⟩ ::
          scrapeGo now titleOf rest ((titleOf el, dt) :: seen)
      | none => scrapeGo now titleOf rest seen
    else scrapeGo now titleOf rest seen

/-- `scrapeTasks()` over a document snapshot. -/
def scrapeTasks (now : Instant) (titleOf : Element → List Char) (doc : List Element) : List Task :=
  scrapeGo now titleOf (findCandidateElements doc) []

/-! ### Helper lemmas -/

theorem fixDay_fixed (fuel : Nat) (y : Int) (m : Nat) (d : Int)
    (h1 : 1 ≤ d) (h2 : d ≤ daysInMonth y m) :
    fixDay (fuel + 1) y m d = ⟨y, m, d⟩ := by
  simp only [fixDay]
  rw [if_neg (by omega), if_neg (by omega)]

theorem mkDateRaw_of_valid (y : Int) (m : Nat) (d : Int)
    (hm : m ≤ 11) (h1 : 1 ≤ d) (h2 : d ≤ daysInMonth y m) :
    mkDateRaw y (m : Int) d = ⟨y, m, d⟩ := by
  unfold mkDateRaw
  have hm0 : (0 : Int) ≤ (m : Int) := Int.natCast_nonneg m
  have hm12 : (m : Int) < 12 := by exact_mod_cast Nat.lt_of_le_of_lt hm (by omega)
  have e1 : (m : Int).ediv 12 = 0 := Int.ediv_eq_zero_of_lt hm0 hm12
  have e2 : (m : Int).emod 12 = (m : Int) := Int.emod_eq_of_lt hm0 hm12
  rw [e1, e2]
  simpa using fixDay_fixed 101 y m d h1 h2

theorem mkDate_of_valid (y : Int) (m : Nat) (d : Int)
    (hy : ¬(0 ≤ y ∧ y ≤ 99)) (hm : m ≤ 11) (h1 : 1 ≤ d) (h2 : d ≤ daysInMonth y m) :
    mkDate y (m : Int) d = ⟨y, m, d⟩ := by
  unfold mkDate fullYear
  rw [if_neg hy]
  exact mkDateRaw_of_valid y m d hm h1 h2

/-! ### C1 -/

/-- C1 counterexample: the text `"due 0099-01-26"` contains the
`YYYY-MM-DD` substring `0099-01-26` (and the ISO matcher does match it),
yet the chosen date is not that exact date: the `Date` constructor's
two-digit-year rule (`MakeFullYear`) remaps the year 99 to 1999, so the
program parses 1999-01-26. -/
theorem c1_date_precedence_counterexample :
    parseDate ⟨2030, 0, 1, 0⟩ "due 0099-01-26".toList = some ⟨1999, 0, 26⟩ ∧
    parseDate ⟨2030, 0, 1, 0⟩ "due 0099-01-26".toList ≠ some ⟨99, 0, 26⟩ :=
  ⟨by decide, by decide⟩

/-- C1 (amended): `parseDate` resolves via the fixed pattern order ISO,
month-name-day-year, month-name-day, relative, the first matching pattern
determining the result; whenever the ISO matcher finds a (word-bounded)
`YYYY-MM-DD` occurrence, that occurrence determines the result for every
clock value and regardless of any month-name date elsewhere in the text.
The exact matched date is chosen whenever its year is at least 0100 (second
conjunct); a matched year 0000 to 0099 is remapped to 1900 to 1999 by the
constructor's two-digit-year rule (third conjunct). -/
theorem c1_date_precedence_amended (now : Instant) (text : List Char) :
    (∀ y mo d, scanFor tryIso false text = some (y, mo, d) →
      parseDate now text = some (mkDate (y : Int) ((mo : Int) - 1) (d : Int))) ∧
    (∀ y mo d, scanFor tryIso false text = some (y, mo, d) →
      100 ≤ y → 1 ≤ mo → mo ≤ 12 → 1 ≤ d →
      (d : Int) ≤ daysInMonth (y : Int) (mo - 1) →
      parseDate now text = some ⟨(y : Int), mo - 1, (d : Int)⟩) ∧
    (∀ y mo d, scanFor tryIso false text = some (y, mo, d) →
      y ≤ 99 → 1 ≤ mo → mo ≤ 12 → 1 ≤ d →
      (d : Int) ≤ daysInMonth ((y : Int) + 1900) (mo - 1) →
      parseDate now text = some ⟨(y : Int) + 1900, mo - 1, (d : Int)⟩) ∧
    (scanFor tryIso false text = none →
      ∀ mo d y, scanFor tryMdy false text = some (mo, d, y) →
        parseDate now text = some (mkDate (y : Int) (mo : Int) (d : Int))) ∧
    (scanFor tryIso false text = none → scanFor tryMdy false text = none →
      ∀ mo d, scanFor tryMd false text = some (mo, d) →
        parseDate now text = some (mdResolve now mo d)) ∧
    (scanFor tryIso false text = none → scanFor tryMdy false text = none →
      scanFor tryMd false text = none →
      ∀ tom, scanFor tryRel false text = some tom →
        parseDate now text = some (relResolve now tom)) ∧
    (scanFor tryIso false text = none → scanFor tryMdy false text = none →
      scanFor tryMd false text = none → scanFor tryRel false text = none →
      parseDate now text = none) := by
  refine ⟨?_, ?_, ?_, ?_, ?_, ?_, ?_⟩
  · intro y mo d h
    simp only [parseDate, h]
  · intro y mo d h hy hmo1 hmo2 hd1 hd2
    have hcast : ((mo : Int) - 1) = ((mo - 1 : Nat) : Int) := by omega
    simp only [parseDate, h, hcast]
    rw [mkDate_of_valid (y : Int) (mo - 1) (d : Int) (by omega) (by omega)
      (by exact_mod_cast hd1) hd2]
  · intro y mo d h hy hmo1 hmo2 hd1 hd2
    have hcast : ((mo : Int) - 1) = ((mo - 1 : Nat) : Int) := by omega
    simp only [parseDate, h, hcast]
    unfold mkDate fullYear
    rw [if_pos ⟨by omega, by omega⟩]
    rw [mkDateRaw_of_valid ((y : Int) + 1900) (mo - 1) (d : Int) (by omega)
      (by exact_mod_cast hd1) hd2]
  · intro h1 mo d y h2
    simp only [parseDate, h1, h2]
  · intro h1 h2 mo d h3
    simp only [parseDate, h1, h2, h3]
  · intro h1 h2 h3 tom h4
    simp only [parseDate, h1, h2, h3, h4]
  · intro h1 h2 h3 h4
    simp only [parseDate, h1, h2, h3, h4]

def c1text : List Char := "Due Jan 5, 2030 2026-01-26".toList

def c1remap : List Char := "due 0099-01-26".toList

/-- Witness for C1 (amended) at a text carrying both a month-name date and
an ISO date (the ISO one wins exactly) and at a two-digit-year ISO text
(the year is remapped to 1999). -/
theorem c1_date_precedence_amended_witness :
    scanFor tryMdy false c1text = some (0, 5, 2030) ∧
    parseDate ⟨2030, 0, 1, 0⟩ c1text = some ⟨2026, 0, 26⟩ ∧
    parseDate ⟨2030, 0, 1, 0⟩ c1remap = some ⟨(99 : Int) + 1900, 0, 26⟩ :=
  ⟨by decide,
   (c1_date_precedence_amended ⟨2030, 0, 1, 0⟩ c1text).2.1 2026 1 26 (by decide)
     (by decide) (by decide) (by decide) (by decide) (by decide),
   (c1_date_precedence_amended ⟨2030, 0, 1, 0⟩ c1remap).2.2.1 99 1 26 (by decide)
     (by decide) (by decide) (by decide) (by decide) (by decide)⟩

/-! ### C2 -/

/-- C2: year inference for month-name dates.  In general (for a clock year
outside the constructor's two-digit 0-99 remapping window — any realistic
"current year" — and a calendar-valid month and day in both candidate
years) the month-day branch assumes the current year and rolls the year
forward by one exactly when the resulting date is strictly earlier than
now.  Concretely, `"Jan 26, 2026"` parses to 2026-01-26 under every clock;
`"Jan 26"` parses to 2027-01-26 when now is 2026-03-01, and to 2026-01-26
when now is 2025-12-01.  Months are 0-based in the civil components, so
month 0 is January, month 2 the March of the stated clock and month 11 its
December. -/
theorem c2_year_inference :
    (∀ (now : Instant) (mo d : Nat), ¬(0 ≤ now.year ∧ now.year ≤ 99) →
      mo ≤ 11 → 1 ≤ d →
      (d : Int) ≤ daysInMonth now.year mo → (d : Int) ≤ daysInMonth (now.year + 1) mo →
      mdResolve now mo d =
        if dateLt ⟨now.year, mo, (d : Int)⟩ now
        then ⟨now.year + 1, mo, (d : Int)⟩
        else ⟨now.year, mo, (d : Int)⟩) ∧
    (∀ now : Instant, parseDate now "Jan 26, 2026".toList = some ⟨2026, 0, 26⟩) ∧
    parseDate ⟨2026, 2, 1, 0⟩ "Jan 26".toList = some ⟨2027, 0, 26⟩ ∧
    parseDate ⟨2025, 11, 1, 0⟩ "Jan 26".toList = some ⟨2026, 0, 26⟩ := by
  refine ⟨?_, fun _ => rfl, by decide, by decide⟩
  intro now mo d hy hmo hd1 hd2 hd3
  unfold mdResolve
  rw [mkDate_of_valid now.year mo (d : Int) hy hmo (by exact_mod_cast hd1) hd2]
  by_cases hlt : dateLt ⟨now.year, mo, (d : Int)⟩ now = true
  · rw [if_pos hlt, if_pos hlt]
    exact mkDateRaw_of_valid (now.year + 1) mo (d : Int) hmo (by exact_mod_cast hd1) hd3
  · rw [if_neg hlt, if_neg hlt]

/-- Witness for C2's general conjunct: January 26 of the current year 2026,
seen on 2026-03-01, lies strictly in the past, so the year becomes 2027. -/
theorem c2_year_inference_witness :
    mdResolve ⟨2026, 2, 1, 0⟩ 0 26 = ⟨2027, 0, 26⟩ :=
  (c2_year_inference.1 ⟨2026, 2, 1, 0⟩ 0 26 (by decide) (by decide) (by decide)
    (by decide) (by decide)).trans (by decide)

/-! ### C3 -/

/-- C3: time normalization.  An hour strictly above 12 is kept as a 24-hour
reading regardless of the meridian; `pm` adds 12 below 12; `12 am` becomes
hour 0; `"17:00 pm"` extracts 17:00, `"5 pm"` extracts 17:00, and a bare
`"5"` extracts no time at all. -/
theorem c3_time_normalization :
    (∀ h m mer, 12 < h → h ≤ 23 → normalizeTime h m mer = ⟨h, m⟩) ∧
    (∀ h m, h < 12 → normalizeTime h m (some Mer.pm) = ⟨h + 12, m⟩) ∧
    (∀ m, normalizeTime 12 m (some Mer.am) = ⟨0, m⟩) ∧
    parseTime "17:00 pm".toList = some ⟨17, 0⟩ ∧
    parseTime "5 pm".toList = some ⟨17, 0⟩ ∧
    parseTime "5".toList = none := by
  refine ⟨?_, ?_, ?_, by decide, by decide, by decide⟩
  · intro h m mer h1 h2
    unfold normalizeTime
    rw [if_pos h1, if_neg (by omega)]
  · intro h m hlt
    unfold normalizeTime
    rw [if_neg (by omega), if_pos ⟨rfl, hlt⟩]
  · intro m
    unfold normalizeTime
    rw [if_neg (by omega), if_neg (by simp), if_pos ⟨rfl, rfl⟩]

/-- Witness for C3: the three normalization rules at concrete inputs. -/
theorem c3_time_normalization_witness :
    normalizeTime 17 0 (some Mer.pm) = ⟨17, 0⟩ ∧
    normalizeTime 5 30 (some Mer.pm) = ⟨17, 30⟩ ∧
    normalizeTime 12 45 (some Mer.am) = ⟨0, 45⟩ :=
  ⟨c3_time_normalization.1 17 0 (some Mer.pm) (by decide) (by decide),
   c3_time_normalization.2.1 5 30 (by decide),
   c3_time_normalization.2.2.1 45⟩

/-! ### C4 -/

def c4input : List Char :=
  "Section B\nWeek 3\nEssay Draft\nDue Jan 26\nDue Jan 26\n35".toList

/-- C4 counterexample: on the spec's own example input the cleaner does NOT
produce the claimed hierarchy `Section B > Week 3 > Essay Draft` with detail
`Due Jan 26` — the line `Essay Draft` matches the two-capitalized-word
personal-name heuristic and is discarded entirely. -/
theorem c4_normalization_counterexample :
    cleanRawText c4input ≠ "Section B > Week 3 > Essay Draft\n\nDue Jan 26".toList := by
  decide

/-- C4 (amended): the duplicate `Due Jan 26` line is collapsed and the
standalone number `35` dropped as claimed, but `Essay Draft` is discarded by
the name heuristic, so the surviving `Due Jan 26` line becomes the
assignment entry: the output is the single hierarchy line
`Section B > Week 3 > Due Jan 26` with no details. -/
theorem c4_normalization_amended :
    cleanRawText c4input = "Section B > Week 3 > Due Jan 26".toList := by
  decide

/-! ### C5 -/

theorem scrapeGo_key_not_mem (now : Instant) (titleOf : Element → List Char) :
    ∀ (l : List (Element × List Char)) (seen : List (List Char × DateTime)) (t : Task),
      t ∈ scrapeGo now titleOf l seen → (t.title, t.dueDate) ∉ seen := by
  intro l
  induction l with
  | nil => intro seen t ht; simp [scrapeGo] at ht
  | cons c rest ih =>
    intro seen t ht
    obtain ⟨el, text⟩ := c
    simp only [scrapeGo] at ht
    split at ht
    · split at ht
      · split at ht
        · exact ih _ t ht
        · rename_i dt _ hmem
          rcases List.mem_cons.mp ht with h | h
          · subst h; simpa using hmem
          · intro hc
            exact ih _ t h (List.mem_cons_of_mem _ hc)
      · exact ih _ t ht
    · exact ih _ t ht

theorem scrapeGo_pairwise (now : Instant) (titleOf : Element → List Char) :
    ∀ (l : List (Element × List Char)) (seen : List (List Char × DateTime)),
      (scrapeGo now titleOf l seen).Pairwise
        (fun a b => ¬(a.title = b.title ∧ a.dueDate = b.dueDate)) := by
  intro l
  induction l with
  | nil => intro seen; simp [scrapeGo]
  | cons c rest ih =>
    intro seen
    obtain ⟨el, text⟩ := c
    simp only [scrapeGo]
    split
    · split
      · split
        · exact ih _
        · rename_i dt _ hmem
          refine List.Pairwise.cons ?_ (ih _)
          intro b hb hab
          have hkey : (b.title, b.dueDate) = (titleOf el, dt) := by
            rw [← hab.1, ← hab.2]
          exact scrapeGo_key_not_mem now titleOf rest _ b hb
            (hkey ▸ List.mem_cons_self _ _)
      · exact ih _
    · exact ih _

def c5doc : List Element :=
  [⟨true, "div".toList, "Due 2026-01-26 apples!!".toList⟩,
   ⟨true, "div".toList, "Due 2026-01-26 bananas!".toList⟩,
   ⟨true, "div".toList, "Due 2026-02-02 bananas!".toList⟩]

/-- C5: the deduplication invariant.  In every scrape pass no two returned
tasks share the (title, dueDate) pair, and on a concrete document two
candidates with the same resolved title and due date collapse into exactly
one task — the first one in collection order, as its `raw` text shows —
while a third candidate differing only in due date survives as a second
record. -/
theorem c5_dedup_invariant :
    (∀ (now : Instant) (titleOf : Element → List Char) (doc : List Element),
      (scrapeTasks now titleOf doc).Pairwise
        (fun a b => ¬(a.title = b.title ∧ a.dueDate = b.dueDate))) ∧
    scrapeTasks ⟨2025, 11, 1, 0⟩ (fun _ => "Task".toList) c5doc =
      [⟨"Task".toList, ⟨2026, 0, 26, 0, 0⟩, "Due 2026-01-26 apples!!".toList⟩,
       ⟨"Task".toList, ⟨2026, 1, 2, 0, 0⟩, "Due 2026-02-02 bananas!".toList⟩] :=
  ⟨fun now titleOf _ => scrapeGo_pairwise now titleOf _ _, by decide⟩

/-! ### C9 -/

theorem scrapeGo_all_fail (now : Instant) (titleOf : Element → List Char) :
    ∀ (l : List (Element × List Char)) (seen : List (List Char × DateTime)),
      (∀ c ∈ l, gate c.2 = false ∨ parseDateTimeFromText now c.2 = none) →
      scrapeGo now titleOf l seen = [] := by
  intro l
  induction l with
  | nil => intro seen _; simp [scrapeGo]
  | cons c rest ih =>
    intro seen hall
    obtain ⟨el, text⟩ := c
    have hrest : ∀ c ∈ rest, gate c.2 = false ∨ parseDateTimeFromText now c.2 = none :=
      fun c hc => hall c (List.mem_cons_of_mem _ hc)
    have hhead := hall (el, text) (List.mem_cons_self _ _)
    simp only [scrapeGo]
    rcases hhead with h | h <;> simp only at h
    · simp [h, ih seen hrest]
    · rw [h]
      split
      · exact ih seen hrest
      · exact ih seen hrest

/-- C9: non-fatal failure policy.  A candidate failing the gate or the date
parser is dropped without affecting the processing of the other candidates
(deleting it from any position of the candidate list leaves the scrape
result unchanged), and a document on which every collected candidate fails
the gate or the parser scrapes to the empty list.  The embedding consists of
total functions, mirroring that no input raises a fatal error in the
source's scrape pass. -/
theorem c9_nonfatal_failures (now : Instant) (titleOf : Element → List Char) :
    (∀ doc : List Element,
      (∀ c ∈ findCandidateElements doc,
        gate c.2 = false ∨ parseDateTimeFromText now c.2 = none) →
      scrapeTasks now titleOf doc = []) ∧
    (∀ (c : Element × List Char),
      (gate c.2 = false ∨ parseDateTimeFromText now c.2 = none) →
      ∀ (pre post : List (Element × List Char)) (seen : List (List Char × DateTime)),
        scrapeGo now titleOf (pre ++ c :: post) seen =
          scrapeGo now titleOf (pre ++ post) seen) := by
  constructor
  · intro doc hall
    exact scrapeGo_all_fail now titleOf _ [] hall
  · intro c hc pre
    induction pre with
    | nil =>
      intro post seen
      obtain ⟨el, text⟩ := c
      rcases hc with h | h
      · simp [scrapeGo, h]
      · simp only [List.nil_append, scrapeGo, h]
        rcases Bool.eq_false_or_eq_true (gate text) with hg | hg <;>
          simp [hg]
    | cons p pre ih =>
      intro post seen
      obtain ⟨el2, text2⟩ := p
      simp only [List.cons_append, scrapeGo]
      split
      · split
        · split
          · exact ih _ _
          · exact congrArg _ (ih _ _)
        · exact ih _ _
      · exact ih _ _

def c9doc : List Element :=
  [⟨true, "div".toList, "hello world nothing here".toList⟩]

def c9cand : Element × List Char :=
  (⟨true, "div".toList, "hello world nothing here".toList⟩,
   "hello world nothing here".toList)

/-- Witness for C9: a document whose single candidate fails the gate scrapes
to the empty list, and deleting that failing candidate leaves a scrape-loop
run unchanged. -/
theorem c9_nonfatal_failures_witness :
    scrapeTasks ⟨2025, 11, 1, 0⟩ (fun _ => "T".toList) c9doc = [] ∧
    scrapeGo ⟨2025, 11, 1, 0⟩ (fun _ => "T".toList) ([] ++ c9cand :: []) [] =
      scrapeGo ⟨2025, 11, 1, 0⟩ (fun _ => "T".toList) ([] ++ []) [] :=
  ⟨(c9_nonfatal_failures ⟨2025, 11, 1, 0⟩ (fun _ => "T".toList)).1 c9doc (by decide),
   (c9_nonfatal_failures ⟨2025, 11, 1, 0⟩ (fun _ => "T".toList)).2 c9cand
     (Or.inl (by decide)) [] [] []⟩

/-! ### C10 -/

/-- C10: the proximity time path bypasses the scan-step rejection rules.
When the first number after `at`, `until` or `by` is a bare hour with
neither minutes nor meridian, `parseTime` returns it (minutes defaulting to
0) instead of rejecting it; a proximity-matched hour above 23 is not
rejected but reduced mod 24 by `normalizeTime`: `"by 5"` yields 5:00 and
`"at 99"` yields 3:00. -/
theorem c10_proximity_bypass :
    (∀ (text : List Char) (h : Nat), findProx text = some ⟨h, none, none⟩ →
      parseTime text = some (normalizeTime h 0 none)) ∧
    (∀ h : Nat, 23 < h → normalizeTime h 0 none = ⟨h % 24, 0⟩) ∧
    parseTime "by 5".toList = some ⟨5, 0⟩ ∧
    parseTime "at 99".toList = some ⟨3, 0⟩ := by
  refine ⟨?_, ?_, by decide, by decide⟩
  · intro text h hf
    simp [parseTime, hf]
  · intro h hgt
    unfold normalizeTime
    rw [if_pos (by omega), if_pos hgt]

/-- Witness for C10: the bare-hour proximity rule at `"by 5"` and the mod-24
reduction at hour 99. -/
theorem c10_proximity_bypass_witness :
    parseTime "by 5".toList = some (normalizeTime 5 0 none) ∧
    normalizeTime 99 0 none = ⟨99 % 24, 0⟩ :=
  ⟨c10_proximity_bypass.1 ("by 5".toList) 5 (by decide),
   c10_proximity_bypass.2.1 99 (by decide)⟩

/-! ### C8 -/

/-- The element-level filter characterizing candidates before text
deduplication (visibility conjoined with the length window). -/
def eligElem (e : Element) : Bool :=
  isVisibleModel e && !skipText (wsTrim e.innerText)

/-- The trimmed texts of all eligible elements, in traversal order. -/
def eligibleTexts (doc : List Element) : List (List Char) :=
  (doc.filter eligElem).map (fun e => wsTrim e.innerText)

/-- Modelled from the spec's words for C8: among equal texts, only the first
occurrence in traversal order is kept. -/
def keepFirsts : List (List Char) → List (List Char)
  | [] => []
  | x :: xs => x :: keepFirsts (xs.filter (fun y => decide (y ≠ x)))
termination_by l => l.length
decreasing_by
  simp only [List.length_cons]
  exact Nat.lt_succ_of_le (List.length_filter_le _ _)

/-- The seen-set formulation of first-occurrence deduplication, matching the
code's loop shape. -/
def kfAux (seen : List (List Char)) : List (List Char) → List (List Char)
  | [] => []
  | x :: xs => if x ∈ seen then kfAux seen xs else x :: kfAux (x :: seen) xs

theorem fceAux_map (l : List Element) :
    ∀ seen, (fceAux l seen).map (fun c => c.2) =
      kfAux seen ((l.filter eligElem).map (fun e => wsTrim e.innerText)) := by
  induction l with
  | nil => intro seen; simp [fceAux, kfAux]
  | cons e rest ih =>
    intro seen
    cases hv : isVisibleModel e with
    | false =>
      have he : eligElem e = false := by simp [eligElem, hv]
      simp only [fceAux, hv, List.filter_cons, he]
      simpa using ih seen
    | true =>
      cases hs : skipText (wsTrim e.innerText) with
      | true =>
        have he : eligElem e = false := by simp [eligElem, hv, hs]
        simp only [fceAux, hv, hs, List.filter_cons, he]
        simpa using ih seen
      | false =>
        have he : eligElem e = true := by simp [eligElem, hv, hs]
        simp only [fceAux, hv, hs, List.filter_cons, he]
        by_cases hm : wsTrim e.innerText ∈ seen
        · simp only [if_pos hm, if_true, List.map_cons, kfAux, if_neg, hm]
          simpa using ih seen
        · simp only [if_neg hm, List.map_cons, kfAux]
          simp only [if_true, List.map_cons, if_neg hm]
          exact congrArg _ (ih _)

theorem kfAux_eq (n : Nat) : ∀ (l : List (List Char)), l.length ≤ n →
    ∀ seen, kfAux seen l = keepFirsts (l.filter (fun y => decide (y ∉ seen))) := by
  induction n with
  | zero =>
    intro l hl seen
    rw [List.length_eq_zero.mp (Nat.le_zero.mp hl)]
    simp [kfAux, keepFirsts]
  | succ n ihn =>
    intro l hl seen
    cases l with
    | nil => simp [kfAux, keepFirsts]
    | cons x xs =>
      simp only [kfAux, List.filter_cons]
      by_cases hx : x ∈ seen
      · rw [if_pos hx]
        have hd : decide (x ∉ seen) = false := by simp [hx]
        rw [hd]
        simp only [Bool.false_eq_true, if_false]
        exact ihn xs (by simpa using Nat.le_of_succ_le_succ (by simpa using hl)) seen
      · rw [if_neg hx]
        have hd : decide (x ∉ seen) = true := by simp [hx]
        rw [hd]
        simp only [if_true]
        rw [keepFirsts, List.filter_filter]
        have hlen : xs.length ≤ n := by simpa using Nat.le_of_succ_le_succ (by simpa using hl)
        rw [ihn xs hlen (x :: seen)]
        have hpred : (fun y => decide (y ∉ x :: seen)) =
            (fun y => decide (y ∉ seen) && decide (y ≠ x)) := by
          funext y
          by_cases h1 : y = x <;> by_cases h2 : y ∈ seen <;>
            simp [h1, h2, List.mem_cons]
        rw [hpred]
        have hcomm : (fun y : List Char => decide (y ∉ seen) && decide (y ≠ x)) =
            (fun y => decide (y ≠ x) && decide (y ∉ seen)) := by
          funext y; exact Bool.and_comm _ _
        rw [hcomm]

theorem fceAux_window (l : List Element) :
    ∀ seen c, c ∈ fceAux l seen → skipText c.2 = false := by
  induction l with
  | nil => intro seen c hc; simp [fceAux] at hc
  | cons e rest ih =>
    intro seen c hc
    simp only [fceAux] at hc
    split at hc
    · split at hc
      · exact ih _ c hc
      · split at hc
        · exact ih _ c hc
        · rcases List.mem_cons.mp hc with h | h
          · subst h
            rename_i hs _
            simpa using hs
          · exact ih _ c h
    · exact ih _ c hc

/-- C8: the candidate window and duplicate suppression.  Every collected
text block has trimmed length between 8 and 1000 inclusive, and the list of
collected texts equals the first-occurrence deduplication (`keepFirsts`,
written from the spec's words) of the eligible texts in traversal order —
so a block outside the window never reaches the gate and among equal texts
exactly the first survives. -/
theorem c8_candidate_window (doc : List Element) :
    (∀ c ∈ findCandidateElements doc, 8 ≤ c.2.length ∧ c.2.length ≤ 1000) ∧
    (findCandidateElements doc).map (fun c => c.2) = keepFirsts (eligibleTexts doc) := by
  constructor
  · intro c hc
    have h := fceAux_window doc [] c hc
    simp only [skipText, Bool.or_eq_false_iff, decide_eq_false_iff_not] at h
    omega
  · rw [findCandidateElements, fceAux_map doc [], kfAux_eq _ _ le_rfl]
    have hpred : (fun y : List Char => decide (y ∉ ([] : List (List Char)))) =
        (fun _ => true) := by
      funext y; simp
    rw [hpred, List.filter_true, eligibleTexts]

/-! ### C6 -/

/-- Modelled from the spec's words for C6: keep the occurrences with hour at
most 23 that carry a meridian or an explicit minutes capture; among them
prefer the first with a meridian, else the first with explicit minutes. -/
def specSelectTime (ts : List TimeMatch) : Option ParsedTime :=
  let valid := ts.filter fun t => decide (t.hours ≤ 23) && (t.mer.isSome || t.minutes.isSome)
  match valid.find? (fun t => t.mer.isSome) with
  | some t => some (normalizeTime t.hours (t.minutes.getD 0) t.mer)
  | none =>
    match valid.find? (fun t => t.minutes.isSome) with
    | some t => some (normalizeTime t.hours (t.minutes.getD 0) t.mer)
    | none => none

theorem codeTimeFilter_eq (t : TimeMatch) :
    codeTimeFilter t = (decide (t.hours ≤ 23) && (t.mer.isSome || t.minutes.isSome)) := by
  unfold codeTimeFilter
  have hh : (!(decide (23 < t.hours))) = decide (t.hours ≤ 23) := by
    by_cases h : 23 < t.hours
    · simp [h, show ¬t.hours ≤ 23 by omega]
    · simp [h, show t.hours ≤ 23 by omega]
  rw [hh]
  cases t.mer <;> cases t.minutes <;> simp

theorem head_filter_eq_find {α : Type} (q : α → Bool) :
    ∀ l : List α, (l.filter q).head? = l.find? q := by
  intro l
  induction l with
  | nil => rfl
  | cons a t ih => cases hq : q a <;> simp [List.filter_cons, List.find?_cons, hq, ih]

theorem find_eq_head_of_all {α : Type} (r : α → Bool)
    (l : List α) (hall : ∀ a ∈ l, r a = true) : l.find? r = l.head? := by
  cases l with
  | nil => rfl
  | cons a t => simp [List.find?_cons, hall a (List.mem_cons_self _ _)]

theorem codeSelect_eq_spec (l : List TimeMatch) :
    (match (l.filter codeTimeFilter).filter (fun t => t.mer.isSome) with
      | t :: _ => some (normalizeTime t.hours (t.minutes.getD 0) t.mer)
      | [] =>
        match l.filter codeTimeFilter with
        | t :: _ => some (normalizeTime t.hours (t.minutes.getD 0) t.mer)
        | [] => none) = specSelectTime l := by
  have hfe : l.filter codeTimeFilter =
      l.filter (fun t => decide (t.hours ≤ 23) && (t.mer.isSome || t.minutes.isSome)) := by
    congr 1
    exact funext codeTimeFilter_eq
  simp only [specSelectTime]
  rw [hfe, ← head_filter_eq_find]
  set valid := l.filter (fun t => decide (t.hours ≤ 23) && (t.mer.isSome || t.minutes.isSome))
    with hvalid
  cases hm : valid.filter (fun t => t.mer.isSome) with
  | cons t ts => simp
  | nil =>
    simp only [List.head?_nil]
    have hmerall : ∀ a ∈ valid, a.mer.isSome = false := by
      intro a ha
      by_cases hsome : a.mer.isSome = true
      · exfalso
        have : a ∈ valid.filter (fun t => t.mer.isSome) := List.mem_filter.mpr ⟨ha, hsome⟩
        rw [hm] at this
        simp at this
      · simpa using hsome
    have hminall : ∀ a ∈ valid, (fun t : TimeMatch => t.minutes.isSome) a = true := by
      intro a ha
      have hpred := (List.mem_filter.mp (hvalid ▸ ha)).2
      simp only [Bool.and_eq_true, Bool.or_eq_true] at hpred
      rcases hpred with ⟨_, hmer | hmin⟩
      · exact absurd hmer (by simp [hmerall a ha])
      · exact hmin
    rw [find_eq_head_of_all _ valid hminall]
    cases valid with
    | nil => simp
    | cons v vs => simp

/-- C6: time-candidate selection.  A proximity match (a time phrase after
`at`/`until`/`by`) is always preferred and used directly; with no proximity
match, `parseTime` equals the spec-worded selection over the whole-block
scan: occurrences with hour above 23 or bare (no minutes capture and no
meridian) are rejected, and among the rest the first with a meridian wins,
else the first with an explicit minutes capture. -/
theorem c6_time_selection (text : List Char) :
    (∀ k, findProx text = some k →
      parseTime text = some (normalizeTime k.hours (k.minutes.getD 0) k.mer)) ∧
    (findProx text = none → parseTime text = specSelectTime (scanTimes text)) := by
  constructor
  · intro k hk
    simp [parseTime, hk]
  · intro hnone
    simp only [parseTime, hnone]
    exact codeSelect_eq_spec (scanTimes text)

def c6text : List Char := "99 16:30 5 pm".toList

/-- Witness for C6 on a text with no proximity keyword: an hour 99 occurrence
is rejected, and the meridian-carrying `5 pm` beats the earlier explicit
minutes `16:30`. -/
theorem c6_time_selection_witness :
    parseTime c6text = specSelectTime (scanTimes c6text) ∧
    specSelectTime (scanTimes c6text) = some ⟨17, 0⟩ :=
  ⟨(c6_time_selection c6text).2 (by decide), by decide⟩

/-! ### C7 -/

theorem digit?_le (c : Char) (x : Nat) (h : digit? c = some x) : x ≤ 9 := by
  unfold digit? at h
  split at h
  · rename_i hc
    injection h with h2
    omega
  · exact absurd h (by simp)

theorem two?_le : ∀ (s : List Char) (v : Nat) (r : List Char),
    two? s = some (v, r) → v ≤ 99 := by
  intro s v r h
  cases s with
  | nil => simp [two?] at h
  | cons a s1 =>
    cases s1 with
    | nil => simp [two?] at h
    | cons b rest =>
      cases hx : digit? a with
      | none => simp [two?, hx] at h
      | some x =>
        cases hy : digit? b with
        | none => simp [two?, hx, hy] at h
        | some y =>
          simp only [two?, hx, hy, Option.some.injEq, Prod.mk.injEq] at h
          have h1 := digit?_le a x hx
          have h2 := digit?_le b y hy
          omega

theorem colonTwo?_le (s : List Char) (v : Nat) (r : List Char)
    (h : colonTwo? s = some (v, r)) : v ≤ 99 := by
  unfold colonTwo? at h
  split at h
  · exact two?_le _ v r h
  · exact absurd h (by simp)

theorem timeRest_minutes (h : Nat) (t : List Char) (o : ScanOut)
    (ho : timeRest h t = some o) : o.m.minutes.getD 0 ≤ 99 := by
  unfold timeRest at ho
  split at ho
  · rename_i mv r hct
    split at ho
    · cases ho
      simpa using colonTwo?_le t mv r hct
    · split at ho
      · cases ho
        simp
      · exact absurd ho (by simp)
  · split at ho
    · cases ho
      simp
    · exact absurd ho (by simp)

theorem tryScanTime_minutes (pw : Bool) (s : List Char) (o : ScanOut)
    (h : tryScanTime pw s = some o) : o.m.minutes.getD 0 ≤ 99 := by
  unfold tryScanTime at h
  split at h
  · exact absurd h (by simp)
  · split at h
    · split at h
      · split at h
        · split at h
          · split at h
            · rename_i hrest
              cases h
              exact timeRest_minutes _ _ _ hrest
            · exact timeRest_minutes _ _ _ h
          · exact timeRest_minutes _ _ _ h
        · exact timeRest_minutes _ _ _ h
      · exact absurd h (by simp)
    · exact absurd h (by simp)

theorem scanTimesAux_minutes :
    ∀ (fuel : Nat) (pw : Bool) (s : List Char) (t : TimeMatch),
      t ∈ scanTimesAux fuel pw s → t.minutes.getD 0 ≤ 99 := by
  intro fuel
  induction fuel with
  | zero => intro pw s t ht; simp [scanTimesAux] at ht
  | succ n ih =>
    intro pw s t ht
    simp only [scanTimesAux] at ht
    split at ht
    · rename_i o hso
      rcases List.mem_cons.mp ht with h | h
      · subst h
        exact tryScanTime_minutes _ _ _ hso
      · exact ih _ _ t h
    · split at ht
      · simp at ht
      · exact ih _ _ t ht

theorem scanFor_imp {α : Type} (tryAt : Bool → List Char → Option α)
    (P : α → Prop) (htry : ∀ pw s r, tryAt pw s = some r → P r) :
    ∀ (pw : Bool) (s : List Char) (r : α), scanFor tryAt pw s = some r → P r := by
  intro pw s
  induction s generalizing pw with
  | nil => intro r h; simp [scanFor] at h
  | cons c rest ih =>
    intro r h
    simp only [scanFor] at h
    split at h
    · rename_i hsome
      cases h
      exact htry _ _ _ hsome
    · exact ih _ r h

theorem tryProx_minutes (s : List Char) (k : TimeMatch)
    (h : tryProx s = some k) : k.minutes.getD 0 ≤ 99 := by
  simp only [tryProx] at h
  split at h
  · exact absurd h (by simp)
  · split at h
    · split at h
      · split at h
        · split at h
          · rename_i hct
            cases h
            rename_i mv r4
            simpa using colonTwo?_le _ _ _ hct
          · cases h
            simp
        · exact absurd h (by simp)
      · exact absurd h (by simp)
    · exact absurd h (by simp)

theorem findProx_minutes (text : List Char) (k : TimeMatch)
    (h : findProx text = some k) : k.minutes.getD 0 ≤ 99 :=
  scanFor_imp _ (fun k => k.minutes.getD 0 ≤ 99)
    (fun _ s r hr => tryProx_minutes s r hr) false text k h

theorem normalizeTime_hours_le (h m : Nat) (mer : Option Mer) :
    (normalizeTime h m mer).hours ≤ 23 := by
  unfold normalizeTime
  split
  · rename_i h12
    by_cases h23 : 23 < h
    · simp only [if_pos h23]
      have := Nat.mod_lt h (show 0 < 24 by omega)
      simpa using by omega
    · simp only [if_neg h23]
      simpa using by omega
  · split
    · rename_i hpm
      simpa using by omega
    · split
      · simp
      · rename_i h12 _ _
        simpa using by omega

theorem normalizeTime_minutes_eq (h m : Nat) (mer : Option Mer) :
    (normalizeTime h m mer).minutes = m := by
  unfold normalizeTime
  split
  · rfl
  · split
    · rfl
    · split
      · rfl
      · rfl

/-- C7 counterexample: the parser produces a time with minutes 99 (from
`"at 5:99"`), so the claimed 0-59 minutes range does not hold. -/
theorem c7_time_range_counterexample :
    parseTime "at 5:99".toList = some ⟨5, 99⟩ ∧ ¬(99 ≤ 59) :=
  ⟨by decide, by decide⟩

/-- C7 (amended): every time value `parseTime` produces has hours between 0
and 23, and minutes between 0 and 99 — the two-digit minutes capture is
passed through unnormalized, so the claimed 0-59 bound fails (the later
`setHours` call rolls the excess into the hours and day). -/
theorem c7_time_range_amended (text : List Char) (t : ParsedTime)
    (h : parseTime text = some t) : t.hours ≤ 23 ∧ t.minutes ≤ 99 := by
  unfold parseTime at h
  split at h
  · rename_i k hk
    cases h
    refine ⟨normalizeTime_hours_le _ _ _, ?_⟩
    rw [normalizeTime_minutes_eq]
    exact findProx_minutes text k hk
  · rename_i hnone
    have h2 : (match ((scanTimes text).filter codeTimeFilter).filter
        (fun t => t.mer.isSome) with
      | t0 :: _ => some (normalizeTime t0.hours (t0.minutes.getD 0) t0.mer)
      | [] =>
        match (scanTimes text).filter codeTimeFilter with
        | t0 :: _ => some (normalizeTime t0.hours (t0.minutes.getD 0) t0.mer)
        | [] => none) = some t := h
    clear h
    split at h2
    · rename_i t0 ts hmer
      cases h2
      refine ⟨normalizeTime_hours_le _ _ _, ?_⟩
      rw [normalizeTime_minutes_eq]
      have hmem0 : t0 ∈ ((scanTimes text).filter codeTimeFilter).filter
          (fun t => t.mer.isSome) := by
        rw [hmer]
        exact List.mem_cons_self _ _
      have hmem1 := (List.mem_filter.mp hmem0).1
      have hmem2 := (List.mem_filter.mp hmem1).1
      exact scanTimesAux_minutes _ _ _ t0 hmem2
    · split at h2
      · rename_i t0 ts htimes
        cases h2
        refine ⟨normalizeTime_hours_le _ _ _, ?_⟩
        rw [normalizeTime_minutes_eq]
        have hmem0 : t0 ∈ (scanTimes text).filter codeTimeFilter := by
          rw [htimes]
          exact List.mem_cons_self _ _
        have hmem1 := (List.mem_filter.mp hmem0).1
        exact scanTimesAux_minutes _ _ _ t0 hmem1
      · exact absurd h2 (by simp)

/-- Witness for C7 (amended) at the concrete parse of `"at 5:99"`. -/
theorem c7_time_range_amended_witness :
    (⟨5, 99⟩ : ParsedTime).hours ≤ 23 ∧ (⟨5, 99⟩ : ParsedTime).minutes ≤ 99 :=
  c7_time_range_amended ("at 5:99".toList) ⟨5, 99⟩ (by decide)

end PolyCapture

